import Mathlib

/-!
Verification of the Grail DQL proxy (`app.py`, `apigrail.py`): shallow
embedding of the timestamp normalizer, the result-shaping adapters, the
submit-and-poll execution engine, the cache key deriver, the TTL cache and
the `/table` request handler, together with theorems settling the spec's
claims about them.
-/

/-- Dynamically-typed scalar values as they appear in backend records:
Python `None`, `int`, `float`, `bool`, `str`, plus a tag standing for any
other object (list, dict, ...).  Floats are modelled as exact rationals. -/
inductive PyVal where
  | none : PyVal
  | int (n : ℤ) : PyVal
  | float (q : ℚ) : PyVal
  | bool (b : Bool) : PyVal
  | str (s : String) : PyVal
  | other (tag : String) : PyVal
deriving DecidableEq

/-- A backend record: a mapping from field name to scalar, modelled as an
association list (Python dict iteration order is insertion order). -/
abbrev PyRec := List (String × PyVal)

/-- Python `r.get(k)`: the value stored under `k`, or `None` when missing. -/
def rGet (r : PyRec) (k : String) : PyVal :=
  match r.find? (fun p => p.1 == k) with
  | Option.some p => p.2
  | Option.none => PyVal.none

/-- Python `int()` applied to a numeric value (modelled as an exact
rational): truncation toward zero. -/
def pyInt (q : ℚ) : ℤ := q.num.tdiv (q.den : ℤ)

/-- The numeric value of a Python `int` / `float` / `bool` (Python treats
`bool` as a subclass of `int`, so `isinstance(ts, (int, float))` accepts it);
`Option.none` for non-numeric values. -/
def toQ : PyVal → Option ℚ
  | PyVal.int n => Option.some (n : ℚ)
  | PyVal.float q => Option.some q
  | PyVal.bool b => Option.some (if b then 1 else 0)
  | _ => Option.none

/-- Replace non-overlapping occurrences of `pat` left to right; the fuel is
an upper bound on the number of characters consumed (each step consumes at
least one when `pat` is nonempty). -/
def replaceGo (pat rep : List Char) : ℕ → List Char → List Char
  | 0, cs => cs
  | _, [] => []
  | fuel + 1, c :: rest =>
    if pat.isPrefixOf (c :: rest) then
      rep ++ replaceGo pat rep fuel ((c :: rest).drop pat.length)
    else c :: replaceGo pat rep fuel rest

/-- Modelled from the spec: Python's `str.replace` (standard library):
replace every non-overlapping occurrence, scanning left to right. -/
def pyReplace (s pat rep : String) : String :=
  if pat.data = [] then s
  else ⟨replaceGo pat.data rep.data s.data.length s.data⟩

/-- Split on occurrences of `sep`, accumulating the current piece; the fuel
is an upper bound on the number of characters consumed. -/
def pySplitGo (sep : List Char) : ℕ → List Char → List Char → List (List Char)
  | 0, acc, cs => [acc ++ cs]
  | _, acc, [] => [acc]
  | fuel + 1, acc, c :: rest =>
    if sep.isPrefixOf (c :: rest) then
      acc :: pySplitGo sep fuel [] ((c :: rest).drop sep.length)
    else pySplitGo sep fuel (acc ++ [c]) rest

/-- Modelled from the spec: Python's `str.split(sep)` (standard library);
always returns a nonempty list of pieces. -/
def pySplit (s sep : String) : List String :=
  if sep.data = [] then [s]
  else (pySplitGo sep.data s.data.length [] s.data).map (fun l => ⟨l⟩)

/-- Modelled from the spec: the value of Python's `datetime` as produced by
`datetime.fromisoformat` (standard library, outside this repository):
calendar fields, microseconds, and an optional UTC offset in seconds
(`Option.none` for a naive datetime). -/
structure PyDatetime where
  year : ℤ
  month : ℕ
  day : ℕ
  hour : ℕ
  minute : ℕ
  second : ℕ
  usec : ℕ
  offS : Option ℤ
deriving DecidableEq

/-- Days from 1970-01-01 to the given proleptic-Gregorian civil date
(standard civil-from-days computation, floor divisions). -/
def daysFromCivil (y : ℤ) (m d : ℕ) : ℤ :=
  let y' : ℤ := if m ≤ 2 then y - 1 else y
  let era : ℤ := Int.fdiv y' 400
  let yoe : ℤ := y' - era * 400
  let mp : ℤ := (m : ℤ) + (if 2 < m then -3 else 9)
  let doy : ℤ := Int.fdiv (153 * mp + 2) 5 + (d : ℤ) - 1
  let doe : ℤ := yoe * 365 + Int.fdiv yoe 4 - Int.fdiv yoe 100 + doy
  era * 146097 + doe - 719468

/-- Modelled from the spec: `int(dt.timestamp() * 1000)` for a parsed
datetime, where `timestamp()` is `sec + usec / 10^6` seconds since the
epoch.  `(sec * 10^6 + usec).tdiv 1000` is the exact value of that float
expression truncated toward zero, in integer arithmetic.  For a naive
datetime CPython applies the process's local timezone; the model fixes the
local timezone to UTC. -/
def pyTimestampMs (dt : PyDatetime) : ℤ :=
  let off : ℤ := dt.offS.getD 0
  let sec : ℤ := daysFromCivil dt.year dt.month dt.day * 86400
    + (dt.hour : ℤ) * 3600 + (dt.minute : ℤ) * 60 + (dt.second : ℤ) - off
  (sec * 1000000 + (dt.usec : ℤ)).tdiv 1000

/-- Decimal value of a digit string. -/
def digitsVal (cs : List Char) : ℕ :=
  cs.foldl (fun a c => a * 10 + (c.toNat - 48)) 0

/-- Read exactly `w` decimal digits from the front of the input. -/
def readNat (w : ℕ) (cs : List Char) : Option (ℕ × List Char) :=
  if (cs.take w).length = w ∧ (cs.take w).all Char.isDigit then
    Option.some (digitsVal (cs.take w), cs.drop w)
  else Option.none

/-- Consume one expected character. -/
def expectChar (c : Char) : List Char → Option (List Char)
  | [] => Option.none
  | x :: rest => if x = c then Option.some rest else Option.none

/-- Gregorian leap-year rule. -/
def isLeapYear (y : ℤ) : Bool :=
  (y % 4 == 0 && y % 100 != 0) || y % 400 == 0

/-- Number of days in a month. -/
def daysInMonth (y : ℤ) (m : ℕ) : ℕ :=
  if m = 2 then (if isLeapYear y then 29 else 28)
  else if m = 4 ∨ m = 6 ∨ m = 9 ∨ m = 11 then 30
  else 31

/-- Fractional-seconds digits (1 to 6), scaled to microseconds. -/
def parseFrac (cs : List Char) : Option (ℕ × List Char) :=
  let ds := cs.takeWhile Char.isDigit
  if 1 ≤ ds.length ∧ ds.length ≤ 6 then
    Option.some (digitsVal ds * 10 ^ (6 - ds.length), cs.dropWhile Char.isDigit)
  else Option.none

/-- Sign of a UTC offset suffix; `true` means negative. -/
def parseOffSign : List Char → Option (Bool × List Char)
  | '+' :: rest => Option.some (false, rest)
  | '-' :: rest => Option.some (true, rest)
  | _ => Option.none

/-- A trailing `±HH:MM` UTC offset, in seconds; must consume all input. -/
def parseOffset (cs : List Char) : Option ℤ :=
  match parseOffSign cs with
  | Option.none => Option.none
  | Option.some (neg, rest) =>
    match readNat 2 rest with
    | Option.none => Option.none
    | Option.some (oh, rest1) =>
      match expectChar ':' rest1 with
      | Option.none => Option.none
      | Option.some rest2 =>
        match readNat 2 rest2 with
        | Option.none => Option.none
        | Option.some (om, rest3) =>
          if rest3 = [] ∧ oh ≤ 23 ∧ om ≤ 59 then
            Option.some ((if neg then -1 else 1) * ((oh : ℤ) * 3600 + (om : ℤ) * 60))
          else Option.none

/-- Optional `:SS` and optional `.ffffff` after `HH:MM`; yields seconds,
microseconds, and the remaining input. -/
def parseSecondsPart (cs : List Char) : Option (ℕ × ℕ × List Char) :=
  match cs with
  | ':' :: r =>
    match readNat 2 r with
    | Option.none => Option.none
    | Option.some (s, r1) =>
      match r1 with
      | '.' :: r2 =>
        match parseFrac r2 with
        | Option.none => Option.none
        | Option.some (u, r3) => Option.some (s, u, r3)
      | _ => Option.some (s, 0, r1)
  | _ => Option.some (0, 0, cs)

/-- Time-of-day with optional offset: `HH:MM[:SS[.ffffff]][±HH:MM]`,
consuming all input. -/
def parseTimeOff (cs : List Char) : Option (ℕ × ℕ × ℕ × ℕ × Option ℤ) :=
  match readNat 2 cs with
  | Option.none => Option.none
  | Option.some (h, r1) =>
    match expectChar ':' r1 with
    | Option.none => Option.none
    | Option.some r2 =>
      match readNat 2 r2 with
      | Option.none => Option.none
      | Option.some (mi, r3) =>
        match parseSecondsPart r3 with
        | Option.none => Option.none
        | Option.some (s, u, r4) =>
          if ¬ (h ≤ 23 ∧ mi ≤ 59 ∧ s ≤ 59) then Option.none
          else match r4 with
          | [] => Option.some (h, mi, s, u, Option.none)
          | _ =>
            match parseOffset r4 with
            | Option.none => Option.none
            | Option.some off => Option.some (h, mi, s, u, Option.some off)

/-- Modelled from the spec: Python's `datetime.fromisoformat` (standard
library, outside this repository), for the common subset
`YYYY-MM-DD[{T or space}HH:MM[:SS][.ffffff]][±HH:MM]`; `Option.none` where
CPython raises `ValueError`. -/
def fromisoModel (s : String) : Option PyDatetime :=
  match readNat 4 s.data with
  | Option.none => Option.none
  | Option.some (y, r1) =>
  match expectChar '-' r1 with
  | Option.none => Option.none
  | Option.some r2 =>
  match readNat 2 r2 with
  | Option.none => Option.none
  | Option.some (mo, r3) =>
  match expectChar '-' r3 with
  | Option.none => Option.none
  | Option.some r4 =>
  match readNat 2 r4 with
  | Option.none => Option.none
  | Option.some (d, r5) =>
  if ¬ (1 ≤ mo ∧ mo ≤ 12 ∧ 1 ≤ d ∧ d ≤ daysInMonth (y : ℤ) mo) then Option.none
  else match r5 with
  | [] => Option.some ⟨(y : ℤ), mo, d, 0, 0, 0, 0, Option.none⟩
  | sep :: r6 =>
    if sep = 'T' ∨ sep = ' ' then
      match parseTimeOff r6 with
      | Option.none => Option.none
      | Option.some (h, mi, s', u, offS) => Option.some ⟨(y : ℤ), mo, d, h, mi, s', u, offS⟩
    else Option.none

/-- Errors a Python call can raise in the modelled fragment. -/
inductive PyErr where
  | valueError : PyErr
  | typeError : PyErr
deriving DecidableEq

deriving instance DecidableEq for Except

/-- Shallow embedding of `app.py`'s `_to_epoch_ms` (lines 94-111),
parametric in the external ISO-8601 parser `fromiso` (Python's
`datetime.fromisoformat`).  The fallback parse of the portion before the
first `.` is not guarded by the `try`, so its failure is an uncaught
`ValueError`, modelled as `Except.error`. -/
def toEpochMs (fromiso : String → Option PyDatetime) (ts : PyVal) :
    Except PyErr (Option ℤ) :=
  match ts with
  | PyVal.none => Except.ok Option.none
  | PyVal.str s =>
    let iso := pyReplace s "Z" "+00:00"
    match fromiso iso with
    | Option.some dt => Except.ok (Option.some (pyTimestampMs dt))
    | Option.none =>
      match fromiso ((pySplit iso ".").headD "") with
      | Option.some dt0 =>
        Except.ok (Option.some (pyTimestampMs { dt0 with offS := Option.some 0 }))
      | Option.none => Except.error PyErr.valueError
  | v =>
    match toQ v with
    | Option.some q =>
      Except.ok (Option.some (if q < 10 ^ 12 then pyInt (q * 1000) else pyInt q))
    | Option.none => Except.ok Option.none

/-- Python's `str()` on the modelled scalar values (the float rendering is
approximate; it is only ever used as an opaque series name). -/
def pyStr : PyVal → String
  | PyVal.none => "None"
  | PyVal.int n => toString n
  | PyVal.float q => toString q
  | PyVal.bool b => if b then "True" else "False"
  | PyVal.str s => s
  | PyVal.other t => t

/-- `series.setdefault(key, []).append(p)`: append `p` to the point list of
group `key`, creating the group at the end on first use (Python dict
insertion order). -/
def addPoint {α : Type} : List (String × List α) → String → α → List (String × List α)
  | [], k, p => [(k, [p])]
  | (k', ps) :: rest, k, p =>
    if k' = k then (k', ps ++ [p]) :: rest else (k', ps) :: addPoint rest k p

/-- The record loop of `app.py`'s `to_grafana_timeseries` (lines 135-142):
group key from `label` (or the constant `"series"`), timestamp via
`_to_epoch_ms` (whose uncaught errors propagate), and rows whose normalized
timestamp or value is `None` are skipped. -/
def collectPoints (fromiso : String → Option PyDatetime)
    (timecol value : String) (label : Option String) :
    List PyRec → List (String × List (ℤ × PyVal)) →
    Except PyErr (List (String × List (ℤ × PyVal)))
  | [], m => Except.ok m
  | r :: rs, m =>
    let key := match label with
      | Option.some l => pyStr (rGet r l)
      | Option.none => "series"
    match toEpochMs fromiso (rGet r timecol) with
    | Except.error e => Except.error e
    | Except.ok ts =>
      let val := rGet r value
      match ts with
      | Option.none => collectPoints fromiso timecol value label rs m
      | Option.some t =>
        if val = PyVal.none then collectPoints fromiso timecol value label rs m
        else collectPoints fromiso timecol value label rs (addPoint m key (t, val))

/-- Insert `x` after every leading element `y` with `le y x`: the insertion
step of a stable insertion sort. -/
def insertSorted {α : Type} (le : α → α → Bool) (x : α) : List α → List α
  | [] => [x]
  | y :: ys => if le y x then y :: insertSorted le x ys else x :: y :: ys

/-- Modelled from the spec: Python's stable `sorted` / `list.sort` under a
key-induced boolean comparison, realized as a stable insertion sort (for a
total preorder, every stable sort produces the same list, so this agrees
with CPython's Timsort). -/
def pySort {α : Type} (le : α → α → Bool) (l : List α) : List α :=
  l.foldl (fun acc x => insertSorted le x acc) []

/-- One output frame of `app.py`'s timeseries adapter: the `"Time"` field's
values and the `"Value"` field's values (positionally paired). -/
structure TSFrame where
  name : String
  times : List ℤ
  vals : List PyVal
deriving DecidableEq

/-- The full timeseries payload of `app.py` (schema tag plus frames). -/
structure TSOut where
  schema : String
  frames : List TSFrame
deriving DecidableEq

/-- `pts.sort(key=lambda x: x[0])`: Python's stable sort by the first
component (timestamps here are integers, so the comparison never fails). -/
def ptsLe (p q : ℤ × PyVal) : Bool := decide (p.1 ≤ q.1)

/-- Shallow embedding of `app.py`'s `to_grafana_timeseries` (lines 132-153),
applied to the extracted record list `j["result"]["records"]`. -/
def toGrafanaTimeseries (fromiso : String → Option PyDatetime) (recs : List PyRec)
    (timecol value : String) (label : Option String) : Except PyErr TSOut :=
  match collectPoints fromiso timecol value label recs [] with
  | Except.error e => Except.error e
  | Except.ok m =>
    Except.ok
      { schema := "grafana-timeseries",
        frames := m.map (fun kp =>
          let pts := pySort ptsLe kp.2
          { name := kp.1, times := pts.map Prod.fst, vals := pts.map Prod.snd }) }

/-- ASCII lower-casing of one character. -/
def pyCharLower (c : Char) : Char :=
  if 'A' ≤ c ∧ c ≤ 'Z' then Char.ofNat (c.toNat + 32) else c

/-- Modelled from the spec: Python's `str.lower` (standard library),
restricted to ASCII. -/
def pyLower (s : String) : String := ⟨s.data.map pyCharLower⟩

/-- Lexicographic strict order on character lists by code point — the order
Python uses to compare strings. -/
def charListLt : List Char → List Char → Bool
  | [], [] => false
  | [], _ :: _ => true
  | _ :: _, [] => false
  | a :: as, b :: bs => decide (a < b) || (a == b && charListLt as bs)

/-- `a <= b` on Python strings: lexicographic by code point. -/
def pyStrLe (a b : String) : Bool := charListLt a.data b.data || a == b

/-- `"time" in k.lower() or k == "timestamp"` from `app.py`'s `sort_key`
(lines 119-123); substring containment is expressed through `pySplit`. -/
def timeLike (k : String) : Bool :=
  (pySplit (pyLower k) "time").length != 1 || k == "timestamp"

/-- The first component of `app.py`'s `sort_key`: 0 for time-like names,
1 otherwise. -/
def colRank (k : String) : ℕ := if timeLike k then 0 else 1

/-- The tuple order `(0 or 1, name)` used by `sorted(..., key=sort_key)`. -/
def colLe (a b : String) : Bool :=
  decide (colRank a < colRank b) || (decide (colRank a = colRank b) && pyStrLe a b)

/-- The union of keys across all records (`{k for r in recs for k in r}`);
the set's iteration order is immaterial because the column sort's key is a
total order on the distinct names. -/
def unionKeys (recs : List PyRec) : List String :=
  ((recs.map (fun r => r.map Prod.fst)).flatten).dedup

/-- The table payload (schema tag, ordered column names, rows). -/
structure TableOut where
  schema : String
  columns : List String
  rows : List (List PyVal)
deriving DecidableEq

/-- Shallow embedding of `app.py`'s `to_grafana_table` (lines 113-130),
applied to the extracted record list: union of keys, sorted time-like first
then lexicographic; each row is the per-column lookup with `None` for a
missing field. -/
def toGrafanaTable (recs : List PyRec) : TableOut :=
  let keys := pySort colLe (unionKeys recs)
  { schema := "grafana-table", columns := keys,
    rows := recs.map (fun r => keys.map (fun k => rGet r k)) }

/-- Shallow embedding of `apigrail.py`'s `to_grafana_table` (lines 33-40):
columns are the union of keys in plain lexicographic order. -/
def agTable (recs : List PyRec) : TableOut :=
  let cols := pySort pyStrLe (unionKeys recs)
  { schema := "grafana-table", columns := cols,
    rows := recs.map (fun r => cols.map (fun c => rGet r c)) }

/-- The inline timestamp normalisation of `apigrail.py`'s
`to_grafana_timeseries` (lines 47-52): a string is parsed with no exception
handling (a parse failure is an uncaught `ValueError`), a numeric value
below `10^12` is scaled to ms, and any other value is left unchanged. -/
def agNormTs (fromiso : String → Option PyDatetime) (ts : PyVal) :
    Except PyErr PyVal :=
  match ts with
  | PyVal.str s =>
    match fromiso (pyReplace s "Z" "+00:00") with
    | Option.some dt => Except.ok (PyVal.int (pyTimestampMs dt))
    | Option.none => Except.error PyErr.valueError
  | v =>
    match toQ v with
    | Option.some q => if q < 10 ^ 12 then Except.ok (PyVal.int (pyInt (q * 1000))) else Except.ok v
    | Option.none => Except.ok v

/-- The record loop of `apigrail.py`'s `to_grafana_timeseries` (lines
45-54): every record contributes a `(ts, val)` pair — there is no skip of
rows with a missing timestamp or value. -/
def agCollect (fromiso : String → Option PyDatetime)
    (timecol value : String) (label : Option String) :
    List PyRec → List (String × List (PyVal × PyVal)) →
    Except PyErr (List (String × List (PyVal × PyVal)))
  | [], m => Except.ok m
  | r :: rs, m =>
    let key := match label with
      | Option.some l => pyStr (rGet r l)
      | Option.none => "series"
    match agNormTs fromiso (rGet r timecol) with
    | Except.error e => Except.error e
    | Except.ok ts => agCollect fromiso timecol value label rs (addPoint m key (ts, rGet r value))

/-- `pts.sort(key=lambda x: x[0])` in `apigrail.py`, where a key may be any
scalar (including `None`): with two or more elements CPython's sort compares
adjacent keys during run detection and raises `TypeError` as soon as a
non-numeric key is involved in a comparison; a singleton or empty list is
returned unchanged.  `agKeyLe` is the comparison on numeric keys. -/
def agKeyLe (p q : PyVal × PyVal) : Bool :=
  decide (((toQ p.1).getD 0) ≤ ((toQ q.1).getD 0))

/-- The sort itself, with the `TypeError` behaviour described above. -/
def agSortPts (pts : List (PyVal × PyVal)) : Except PyErr (List (PyVal × PyVal)) :=
  if pts.length ≤ 1 then Except.ok pts
  else if pts.all (fun p => (toQ p.1).isSome) then
    Except.ok (pySort agKeyLe pts)
  else Except.error PyErr.typeError

/-- One output frame of `apigrail.py`'s timeseries adapter: time values may
be arbitrary scalars (`None` included) since rows are not filtered. -/
structure AgFrame where
  name : String
  times : List PyVal
  vals : List PyVal
deriving DecidableEq

/-- The full timeseries payload of `apigrail.py`. -/
structure AgTSOut where
  schema : String
  frames : List AgFrame
deriving DecidableEq

/-- The frame-building loop of `apigrail.py` (lines 55-61), with the
fallible per-group sort. -/
def agBuildFrames : List (String × List (PyVal × PyVal)) → Except PyErr (List AgFrame)
  | [] => Except.ok []
  | kp :: rest =>
    match agSortPts kp.2 with
    | Except.error e => Except.error e
    | Except.ok pts =>
      match agBuildFrames rest with
      | Except.error e => Except.error e
      | Except.ok fs =>
        Except.ok ({ name := kp.1, times := pts.map Prod.fst, vals := pts.map Prod.snd } :: fs)

/-- Shallow embedding of `apigrail.py`'s `to_grafana_timeseries` (lines
42-62), applied to the extracted record list. -/
def agTimeseries (fromiso : String → Option PyDatetime) (recs : List PyRec)
    (timecol value : String) (label : Option String) : Except PyErr AgTSOut :=
  match agCollect fromiso timecol value label recs [] with
  | Except.error e => Except.error e
  | Except.ok m =>
    match agBuildFrames m with
    | Except.error e => Except.error e
    | Except.ok fs => Except.ok { schema := "grafana-timeseries", frames := fs }

/-- An `HTTPException(status_code, detail)` as raised by `grail_query` and
the handlers. -/
structure HTTPExc where
  code : ℕ
  detail : String
deriving DecidableEq

/-- The backend's answer to one poll request: either a transport/HTTP error
(status ≥ 400 with a body), or a JSON document with its optional `status`
field and its serialized payload. -/
inductive PollResp where
  | httpErr (code : ℕ) (body : String) : PollResp
  | result (status : Option String) (payload : String) : PollResp
deriving DecidableEq

/-- One poll round trip: its wall-clock duration and the response.  Time is
modelled as an integer number of milliseconds (the code works in float
seconds; only order and differences of time values matter to the logic, so
the constants 0.25 s, 1.0 s and `timeout_sec` become 250, 1000 and
`timeout` ms). -/
structure PollStep where
  dur : ℤ
  resp : PollResp
deriving DecidableEq

/-- The backend's answer to the submission request: an HTTP error, or a JSON
document whose `jobId` field may be missing. -/
inductive SubmitResp where
  | httpErr (code : ℕ) (body : String) : SubmitResp
  | ok (jobId : Option String) : SubmitResp
deriving DecidableEq

/-- The polling loop of `grail_query` (`app.py` lines 76-92).  `polls i` is
the `i`-th poll round trip, `start` the value `time.time()` captured after
the submission response, `now` the current time before sending poll `i`,
`backoff` the current sleep duration.  The loop is unbounded in the source;
`fuel` bounds the number of iterations of the model and `Option.none` means
the fuel ran out. -/
def pollLoop (polls : ℕ → PollStep) (timeout start : ℤ) :
    ℕ → ℤ → ℤ → ℕ → Option (Except HTTPExc String)
  | _, _, _, 0 => Option.none
  | i, now, backoff, fuel + 1 =>
    let st := polls i
    let now' := now + st.dur
    match st.resp with
    | PollResp.httpErr code body => Option.some (Except.error ⟨code, body⟩)
    | PollResp.result status payload =>
      if status = Option.some "SUCCEEDED" then Option.some (Except.ok payload)
      else if status = Option.some "FAILED" then Option.some (Except.error ⟨502, payload⟩)
      else if timeout < now' - start then
        Option.some (Except.error ⟨504, "Grail timeout"⟩)
      else pollLoop polls timeout start (i + 1) (now' + backoff) (min (backoff * 2) 1000) fuel

/-- Shallow embedding of `grail_query` (`app.py` lines 64-92).  The
submission begins at time 0 and its round trip takes `subDur`;
`start = subDur` is the `time.time()` captured after submission.  Network
behaviour (`submit`, `polls`) is a parameter. -/
def grailQuery (configured : Bool) (submit : SubmitResp) (subDur : ℤ)
    (polls : ℕ → PollStep) (timeout : ℤ) (fuel : ℕ) :
    Option (Except HTTPExc String) :=
  if ¬ configured then Option.some (Except.error ⟨500, "DT_URL/DT_TOKEN not configured"⟩)
  else
    match submit with
    | SubmitResp.httpErr code body => Option.some (Except.error ⟨code, body⟩)
    | SubmitResp.ok Option.none =>
      Option.some (Except.error ⟨502, "Grail did not return a jobId"⟩)
    | SubmitResp.ok (Option.some _) => pollLoop polls timeout subDur 0 subDur 250 fuel

/-- The sleep duration used after the `i`-th pending poll: 250 ms doubling
to a 1000 ms cap. -/
def backoffAt (i : ℕ) : ℤ := min (250 * 2 ^ i) 1000

/-- Wall-clock time consumed inside the polling loop before poll `i` is
sent. -/
def preTime (polls : ℕ → PollStep) : ℕ → ℤ
  | 0 => 0
  | i + 1 => preTime polls i + (polls i).dur + backoffAt i

/-- Wall-clock time since the polling loop started when the response to
poll `i` arrives — the quantity the code compares against the timeout. -/
def loopElapsed (polls : ℕ → PollStep) (i : ℕ) : ℤ :=
  preTime polls i + (polls i).dur

/-- Poll `i` reports neither success nor failure nor a transport error: the
job is still pending. -/
def isPending (st : PollStep) : Prop :=
  ∃ status payload, st.resp = PollResp.result status payload ∧
    status ≠ Option.some "SUCCEEDED" ∧ status ≠ Option.some "FAILED"

/-- Modelled from the spec: Python's `"|".join(parts)` (standard library). -/
def pyJoin (sep : String) : List String → String
  | [] => ""
  | [s] => s
  | s :: rest => s ++ sep ++ pyJoin sep rest

/-- Shallow embedding of `app.py`'s `_hash_key` (lines 60-62), parametric in
the cryptographic digest (`hashlib.sha1(...).hexdigest()`, standard library,
outside this repository). -/
def hashKey (digest : String → String) (parts : List String) : String :=
  digest (pyJoin "|" parts)

/-- Modelled from the spec: a deterministic stand-in for the sha1 hex
digest.  The claims settled against it do not depend on the digest's
compression: the collision exhibited below already has equal digest
inputs. -/
def digestModel (s : String) : String := s

/-- A TTL cache slot: `{"value": v, "ts": insertion-time}`. -/
structure CEntry (α : Type) where
  value : α
  ts : ℤ
deriving DecidableEq

/-- The store is a Python dict: an insertion-ordered association list with
unique keys (assignment to an existing key keeps its position). -/
def storeLookup {α : Type} (s : List (String × CEntry α)) (k : String) :
    Option (CEntry α) :=
  match s.find? (fun p => p.1 == k) with
  | Option.some p => Option.some p.2
  | Option.none => Option.none

/-- `self.store[key] = {"value": value, "ts": now}`: overwrite in place or
append. -/
def dictSet {α : Type} (s : List (String × CEntry α)) (k : String) (e : CEntry α) :
    List (String × CEntry α) :=
  if s.any (fun p => p.1 == k) then s.map (fun p => if p.1 == k then (k, e) else p)
  else s ++ [(k, e)]

/-- `min(self.store, key=lambda k: self.store[k]["ts"])`: the first key in
insertion order whose entry has the minimal timestamp (Python's `min` keeps
the earliest of tied elements). -/
def oldestEntry {α : Type} : List (String × CEntry α) → Option (String × CEntry α)
  | [] => Option.none
  | x :: xs =>
    match oldestEntry xs with
    | Option.none => Option.some x
    | Option.some y => Option.some (if y.2.ts < x.2.ts then y else x)

/-- `TTLCache._evict_if_needed` (`app.py` lines 30-35). -/
def evictIfNeeded {α : Type} (maxItems : ℕ) (s : List (String × CEntry α)) :
    List (String × CEntry α) :=
  if s.length ≤ maxItems then s
  else
    match oldestEntry s with
    | Option.none => s
    | Option.some y => s.eraseP (fun p => p.1 == y.1)

/-- `TTLCache.set` (`app.py` lines 46-48): insert with the current time as
timestamp, then evict if over capacity. -/
def cacheSet {α : Type} (maxItems : ℕ) (s : List (String × CEntry α))
    (k : String) (v : α) (now : ℤ) : List (String × CEntry α) :=
  evictIfNeeded maxItems (dictSet s k ⟨v, now⟩)

/-- `TTLCache.get` (`app.py` lines 37-44): a present entry older than the
caller's `ttl` is removed and reported as a miss; returns the result and the
store afterwards. -/
def cacheGet {α : Type} (s : List (String × CEntry α)) (k : String)
    (ttl now : ℤ) : Option α × List (String × CEntry α) :=
  match storeLookup s k with
  | Option.none => (Option.none, s)
  | Option.some e =>
    if ttl < now - e.ts then (Option.none, s.eraseP (fun p => p.1 == k))
    else (Option.some e.value, s)

/-- Shallow embedding of the `/table` request handler (`app.py` lines
176-192) after auth: derive the key, check the cache, on a miss run the
engine (its outcome — the extracted record list on success — is a
parameter, as is the digest), shape, store, respond.  Returns the response
outcome and the store after the request. -/
def tableHandler (digest : String → String) (maxItems : ℕ)
    (store : List (String × CEntry TableOut)) (dql fromP toP : String)
    (ttl now : ℤ) (engine : Except HTTPExc (List PyRec)) :
    Except HTTPExc TableOut × List (String × CEntry TableOut) :=
  let key := hashKey digest ["table", dql, fromP, toP]
  match cacheGet store key ttl now with
  | (Option.some hit, s') => (Except.ok hit, s')
  | (Option.none, s') =>
    match engine with
    | Except.error e => (Except.error e, s')
    | Except.ok recs =>
      let out := toGrafanaTable recs
      (Except.ok out, cacheSet maxItems s' key out now)

/-- A backend trace used for the C4 counterexample: the first poll is
pending, the second succeeds; each round trip takes 10 ms. -/
def cexPolls : ℕ → PollStep := fun i =>
  if i = 0 then ⟨10, PollResp.result (Option.some "RUNNING") "r"⟩
  else ⟨10, PollResp.result (Option.some "SUCCEEDED") "done"⟩

/-- A backend trace that stays pending forever, each poll taking 1000 ms;
used for the C4 witness. -/
def pendingPolls : ℕ → PollStep :=
  fun _ => ⟨1000, PollResp.result (Option.some "RUNNING") "r"⟩

/-- `pyJoin` at the character level, for a single-character separator (used
to reason about which parameter lists share a digest input). -/
def joinC (c : Char) : List (List Char) → List Char
  | [] => []
  | [a] => a
  | a :: rest => a ++ c :: joinC c rest

/-- A point `(t, v)` originates from a record of `recs`: some record's
`timecol` field normalizes to exactly `t` (present, not absent) and its
`value` field is present and equals `v`. -/
def PointOrigin (fromiso : String → Option PyDatetime) (recs : List PyRec)
    (timecol value : String) (p : ℤ × PyVal) : Prop :=
  ∃ r ∈ recs, toEpochMs fromiso (rGet r timecol) = Except.ok (Option.some p.1) ∧
    rGet r value = p.2 ∧ p.2 ≠ PyVal.none

/-! ## Theorems -/

theorem insertSorted_mem {α : Type} (le : α → α → Bool) (x : α) :
    ∀ (l : List α) (a : α), a ∈ insertSorted le x l ↔ a = x ∨ a ∈ l := by
  intro l
  induction l with
  | nil => intro a; simp [insertSorted]
  | cons y ys ih =>
    intro a
    simp only [insertSorted]
    by_cases h : le y x = true
    · rw [if_pos h]
      rw [List.mem_cons, ih a, List.mem_cons]
      tauto
    · rw [if_neg h]
      rw [List.mem_cons, List.mem_cons]

theorem pySort_mem_aux {α : Type} (le : α → α → Bool) :
    ∀ (l acc : List α) (a : α),
    a ∈ l.foldl (fun acc x => insertSorted le x acc) acc ↔ a ∈ acc ∨ a ∈ l := by
  intro l
  induction l with
  | nil => intro acc a; simp
  | cons x xs ih =>
    intro acc a
    simp only [List.foldl_cons, ih, insertSorted_mem, List.mem_cons]
    tauto

theorem pySort_mem {α : Type} (le : α → α → Bool) (l : List α) (a : α) :
    a ∈ pySort le l ↔ a ∈ l := by
  rw [pySort, pySort_mem_aux]
  simp

theorem insertSorted_pairwise {α : Type} (le : α → α → Bool)
    (htrans : ∀ a b c, le a b = true → le b c = true → le a c = true)
    (htotal : ∀ a b, le a b = true ∨ le b a = true) (x : α) :
    ∀ (l : List α), List.Pairwise (fun a b => le a b = true) l →
    List.Pairwise (fun a b => le a b = true) (insertSorted le x l) := by
  intro l
  induction l with
  | nil => intro _; simp [insertSorted]
  | cons y ys ih =>
    intro hp
    rw [List.pairwise_cons] at hp
    simp only [insertSorted]
    by_cases h : le y x = true
    · rw [if_pos h]
      rw [List.pairwise_cons]
      refine ⟨?_, ih hp.2⟩
      intro z hz
      rcases (insertSorted_mem le x ys z).mp hz with rfl | hzys
      · exact h
      · exact hp.1 z hzys
    · rw [if_neg h]
      have hxy : le x y = true := by
        rcases htotal x y with hxy | hyx
        · exact hxy
        · exact absurd hyx h
      rw [List.pairwise_cons]
      refine ⟨?_, List.pairwise_cons.mpr hp⟩
      intro z hz
      rcases List.mem_cons.mp hz with rfl | hzys
      · exact hxy
      · exact htrans x y z hxy (hp.1 z hzys)

theorem pySort_pairwise_aux {α : Type} (le : α → α → Bool)
    (htrans : ∀ a b c, le a b = true → le b c = true → le a c = true)
    (htotal : ∀ a b, le a b = true ∨ le b a = true) :
    ∀ (l acc : List α), List.Pairwise (fun a b => le a b = true) acc →
    List.Pairwise (fun a b => le a b = true)
      (l.foldl (fun acc x => insertSorted le x acc) acc) := by
  intro l
  induction l with
  | nil => intro acc h; exact h
  | cons x xs ih =>
    intro acc h
    exact ih _ (insertSorted_pairwise le htrans htotal x acc h)

theorem pySort_pairwise {α : Type} (le : α → α → Bool)
    (htrans : ∀ a b c, le a b = true → le b c = true → le a c = true)
    (htotal : ∀ a b, le a b = true ∨ le b a = true) (l : List α) :
    List.Pairwise (fun a b => le a b = true) (pySort le l) :=
  pySort_pairwise_aux le htrans htotal l [] List.Pairwise.nil

theorem pyInt_intCast (n : ℤ) : pyInt (n : ℚ) = n := by
  simp [pyInt, Rat.num_intCast, Rat.den_intCast]

/-- Evaluation of the normalizer on a Python `int`. -/
theorem toEpochMs_int (fromiso : String → Option PyDatetime) (n : ℤ) :
    toEpochMs fromiso (PyVal.int n)
      = Except.ok (Option.some (if n < 10 ^ 12 then n * 1000 else n)) := by
  have hcast : ((n : ℚ) < 10 ^ 12) ↔ (n < 10 ^ 12) := by
    constructor <;> intro h <;> exact_mod_cast h
  simp only [toEpochMs, toQ]
  by_cases h : n < 10 ^ 12
  · rw [if_pos (hcast.mpr h), if_pos h]
    have hmul : (n : ℚ) * 1000 = ((n * 1000 : ℤ) : ℚ) := by push_cast; ring
    rw [hmul, pyInt_intCast]
  · rw [if_neg (fun hq => h (hcast.mp hq)), if_neg h, pyInt_intCast]

/-- The spec's end-to-end example: `"2024-01-01T00:00:00Z"` normalizes to
epoch-ms 1704067200000. -/
theorem fromiso_sanity :
    toEpochMs fromisoModel (PyVal.str "2024-01-01T00:00:00Z")
      = Except.ok (Option.some 1704067200000) := by decide

/-- The spec's end-to-end example: epoch-seconds 1704067260 normalizes to
epoch-ms 1704067260000. -/
theorem fromiso_sanity_epoch :
    toEpochMs fromisoModel (PyVal.int 1704067260)
      = Except.ok (Option.some 1704067260000) := by
  rw [toEpochMs_int]; decide

/-- C1 counterexample: the claim quantifies over every numeric `t < 10^12`,
but at `t = 1` normalizing `t` yields 1000 ms while normalizing `t * 1000`
yields 1000000 ms — `1000` is itself below `10^12` and is scaled again. -/
theorem c1_counterexample :
    toEpochMs fromisoModel (PyVal.int 1) = Except.ok (Option.some 1000) ∧
    toEpochMs fromisoModel (PyVal.int (1 * 1000)) = Except.ok (Option.some 1000000) ∧
    (1 : ℤ) < 10 ^ 12 ∧ (1000 : ℤ) ≠ 1000000 := by
  refine ⟨?_, ?_, by norm_num, by norm_num⟩ <;> · rw [toEpochMs_int]; norm_num

/-- C1 amended: for numeric `t` with `10^9 ≤ t < 10^12` (so that `t * 1000`
falls into the already-milliseconds range), normalizing `t` and normalizing
`t * 1000` yield the same epoch-ms value, for Python ints and floats
alike. -/
theorem c1_amended (fromiso : String → Option PyDatetime) (n : ℤ) (q : ℚ)
    (hn1 : 10 ^ 9 ≤ n) (hn2 : n < 10 ^ 12)
    (hq1 : 10 ^ 9 ≤ q) (hq2 : q < 10 ^ 12) :
    toEpochMs fromiso (PyVal.int n) = toEpochMs fromiso (PyVal.int (n * 1000)) ∧
    toEpochMs fromiso (PyVal.float q) = toEpochMs fromiso (PyVal.float (q * 1000)) := by
  constructor
  · rw [toEpochMs_int, toEpochMs_int, if_pos hn2, if_neg ?_]
    push_neg
    calc (10 : ℤ) ^ 12 = 10 ^ 9 * 1000 := by norm_num
    _ ≤ n * 1000 := by exact mul_le_mul_of_nonneg_right hn1 (by norm_num)
  · have h2 : ¬ (q * 1000 < 10 ^ 12) := by
      push_neg
      calc (10 : ℚ) ^ 12 = 10 ^ 9 * 1000 := by norm_num
      _ ≤ q * 1000 := by exact mul_le_mul_of_nonneg_right hq1 (by norm_num)
    simp only [toEpochMs, toQ]
    rw [if_pos hq2, if_neg h2]

/-- C1 witness: the amended equivalence instantiated at `t = 10^9`. -/
theorem c1_witness :
    toEpochMs fromisoModel (PyVal.int (10 ^ 9))
      = toEpochMs fromisoModel (PyVal.int (10 ^ 9 * 1000)) ∧
    toEpochMs fromisoModel (PyVal.float (10 ^ 9))
      = toEpochMs fromisoModel (PyVal.float (10 ^ 9 * 1000)) :=
  c1_amended fromisoModel (10 ^ 9) (10 ^ 9) (le_refl _) (by decide) (le_refl _) (by decide)

/-- C2 counterexample: on the string `"x"` both the full parse and the
fallback parse fail, and the normalizer raises `ValueError` (the fallback
call is outside the `try`) instead of returning absent. -/
theorem c2_counterexample :
    toEpochMs fromisoModel (PyVal.str "x") = Except.error PyErr.valueError ∧
    fromisoModel (pyReplace "x" "Z" "+00:00") = Option.none ∧
    fromisoModel ((pySplit (pyReplace "x" "Z" "+00:00") ".").headD "") = Option.none := by
  refine ⟨?_, ?_, ?_⟩ <;> decide

/-- C2 amended: an input that is neither numeric nor a string (`None` or any
other object) yields absent without raising, but a string for which both the
full parse and the fallback parse fail makes the normalizer raise
`ValueError` — it does not return absent. -/
theorem c2_amended (fromiso : String → Option PyDatetime) (t s : String)
    (h1 : fromiso (pyReplace s "Z" "+00:00") = Option.none)
    (h2 : fromiso ((pySplit (pyReplace s "Z" "+00:00") ".").headD "") = Option.none) :
    toEpochMs fromiso PyVal.none = Except.ok Option.none ∧
    toEpochMs fromiso (PyVal.other t) = Except.ok Option.none ∧
    toEpochMs fromiso (PyVal.str s) = Except.error PyErr.valueError := by
  refine ⟨rfl, rfl, ?_⟩
  simp only [toEpochMs, h1, h2]

/-- C2 witness: the amended behaviour instantiated at the unparseable string
`"zzz"` and the non-scalar tag `"dict"`. -/
theorem c2_witness :
    toEpochMs fromisoModel PyVal.none = Except.ok Option.none ∧
    toEpochMs fromisoModel (PyVal.other "dict") = Except.ok Option.none ∧
    toEpochMs fromisoModel (PyVal.str "zzz") = Except.error PyErr.valueError :=
  c2_amended fromisoModel "dict" "zzz" (by decide) (by decide)

theorem pyJoin_bar_data (l : List String) :
    (pyJoin "|" l).data = joinC '|' (l.map String.data) := by
  induction l with
  | nil => rfl
  | cons s rest ih =>
    cases rest with
    | nil => rfl
    | cons t ts =>
      show (s ++ "|" ++ pyJoin "|" (t :: ts)).data
        = s.data ++ '|' :: joinC '|' ((t :: ts).map String.data)
      rw [String.data_append, String.data_append, ih]
      simp

theorem sep_head_eq (c : Char) (a₁ : List Char) :
    ∀ (a₂ r₁ r₂ : List Char), c ∉ a₁ → c ∉ a₂ →
    (r₁ = [] ∨ ∃ t, r₁ = c :: t) → (r₂ = [] ∨ ∃ t, r₂ = c :: t) →
    a₁ ++ r₁ = a₂ ++ r₂ → a₁ = a₂ ∧ r₁ = r₂ := by
  induction a₁ with
  | nil =>
    intro a₂ r₁ r₂ h1 h2 s1 s2 he
    simp only [List.nil_append] at he
    cases a₂ with
    | nil => exact ⟨rfl, by simpa using he⟩
    | cons x xs =>
      exfalso
      rcases s1 with hnil | ⟨t, ht⟩
      · subst hnil
        exact List.cons_ne_nil _ _ he.symm
      · subst ht
        rw [List.cons_append] at he
        have hx : c = x := (List.cons.inj he).1
        exact h2 (hx ▸ List.mem_cons_self x xs)
  | cons y ys ih =>
    intro a₂ r₁ r₂ h1 h2 s1 s2 he
    cases a₂ with
    | nil =>
      exfalso
      simp only [List.nil_append, List.cons_append] at he
      rcases s2 with hnil | ⟨t, ht⟩
      · subst hnil
        exact List.cons_ne_nil _ _ he
      · subst ht
        have hy : y = c := (List.cons.inj he).1
        exact h1 (hy ▸ List.mem_cons_self y ys)
    | cons x xs =>
      simp only [List.cons_append] at he
      have hyx : y = x := (List.cons.inj he).1
      have htl : ys ++ r₁ = xs ++ r₂ := (List.cons.inj he).2
      obtain ⟨hr1, hr2⟩ := ih xs r₁ r₂ (fun hm => h1 (List.mem_cons_of_mem y hm))
        (fun hm => h2 (List.mem_cons_of_mem x hm)) s1 s2 htl
      exact ⟨by rw [hyx, hr1], hr2⟩

theorem joinC_inj (c : Char) (l₁ : List (List Char)) :
    ∀ (l₂ : List (List Char)), l₁ ≠ [] → l₂ ≠ [] →
    (∀ a ∈ l₁, c ∉ a) → (∀ a ∈ l₂, c ∉ a) →
    joinC c l₁ = joinC c l₂ → l₁ = l₂ := by
  induction l₁ with
  | nil => intro l₂ hne; exact absurd rfl hne
  | cons a₁ t₁ ih =>
    intro l₂ _ h2ne hf1 hf2 he
    cases l₂ with
    | nil => exact absurd rfl h2ne
    | cons a₂ t₂ =>
      have ha₁ : c ∉ a₁ := hf1 a₁ (List.mem_cons_self _ _)
      have ha₂ : c ∉ a₂ := hf2 a₂ (List.mem_cons_self _ _)
      cases t₁ with
      | nil =>
        cases t₂ with
        | nil =>
          have : a₁ = a₂ := he
          rw [this]
        | cons b₂ u₂ =>
          exfalso
          have he' : a₁ ++ [] = a₂ ++ (c :: joinC c (b₂ :: u₂)) := by
            rw [List.append_nil]; exact he
          obtain ⟨-, hr⟩ := sep_head_eq c a₁ a₂ [] (c :: joinC c (b₂ :: u₂)) ha₁ ha₂
            (Or.inl rfl) (Or.inr ⟨_, rfl⟩) he'
          exact List.cons_ne_nil _ _ hr.symm
      | cons b₁ u₁ =>
        cases t₂ with
        | nil =>
          exfalso
          have he' : a₁ ++ (c :: joinC c (b₁ :: u₁)) = a₂ ++ [] := by
            rw [List.append_nil]; exact he
          obtain ⟨-, hr⟩ := sep_head_eq c a₁ a₂ (c :: joinC c (b₁ :: u₁)) [] ha₁ ha₂
            (Or.inr ⟨_, rfl⟩) (Or.inl rfl) he'
          exact List.cons_ne_nil _ _ hr
        | cons b₂ u₂ =>
          obtain ⟨hhd, htl⟩ := sep_head_eq c a₁ a₂ (c :: joinC c (b₁ :: u₁))
            (c :: joinC c (b₂ :: u₂)) ha₁ ha₂ (Or.inr ⟨_, rfl⟩) (Or.inr ⟨_, rfl⟩) he
          have hj : joinC c (b₁ :: u₁) = joinC c (b₂ :: u₂) := (List.cons.inj htl).2
          have := ih (b₂ :: u₂) (List.cons_ne_nil _ _) (List.cons_ne_nil _ _)
            (fun a ha => hf1 a (List.mem_cons_of_mem _ ha))
            (fun a ha => hf2 a (List.mem_cons_of_mem _ ha)) hj
          rw [hhd, this]

theorem pyJoin_inj (p₁ p₂ : List String) (h₁ : p₁ ≠ []) (h₂ : p₂ ≠ [])
    (hc₁ : ∀ s ∈ p₁, ('|' : Char) ∉ s.data) (hc₂ : ∀ s ∈ p₂, ('|' : Char) ∉ s.data)
    (he : pyJoin "|" p₁ = pyJoin "|" p₂) : p₁ = p₂ := by
  have hd : joinC '|' (p₁.map String.data) = joinC '|' (p₂.map String.data) := by
    rw [← pyJoin_bar_data, ← pyJoin_bar_data, he]
  have hmap := joinC_inj '|' (p₁.map String.data) (p₂.map String.data)
    (by simpa using h₁) (by simpa using h₂)
    (by intro a ha
        rcases List.mem_map.mp ha with ⟨s, hs, rfl⟩
        exact hc₁ s hs)
    (by intro a ha
        rcases List.mem_map.mp ha with ⟨s, hs, rfl⟩
        exact hc₂ s hs) hd
  exact List.map_injective_iff.mpr (fun a b hab => String.ext hab) hmap

/-- C5 counterexample: the parameter lists `("ts", "a|b", "c")` and
`("ts", "a", "b|c")` differ in their second position, yet the joined digest
inputs — hence the fingerprints, for any digest — coincide. -/
theorem c5_counterexample :
    hashKey digestModel ["ts", "a|b", "c"] = hashKey digestModel ["ts", "a", "b|c"] ∧
    (["ts", "a|b", "c"] : List String) ≠ ["ts", "a", "b|c"] := by
  constructor
  · decide
  · decide

/-- C5 amended: calls with equal kind/parameter lists always produce the
same fingerprint, and — provided no parameter contains the separator `|` —
distinct parameter lists produce distinct digest inputs (so they can only
collide through a digest collision); with a pipe inside a parameter the
claim fails, as the counterexample shows. -/
theorem c5_amended (digest : String → String) (p₁ p₂ : List String)
    (h₁ : p₁ ≠ []) (h₂ : p₂ ≠ [])
    (hc₁ : ∀ s ∈ p₁, ('|' : Char) ∉ s.data) (hc₂ : ∀ s ∈ p₂, ('|' : Char) ∉ s.data) :
    (p₁ = p₂ → hashKey digest p₁ = hashKey digest p₂) ∧
    (p₁ ≠ p₂ → pyJoin "|" p₁ ≠ pyJoin "|" p₂) := by
  constructor
  · intro h; rw [h]
  · intro hne habs
    exact hne (pyJoin_inj p₁ p₂ h₁ h₂ hc₁ hc₂ habs)

/-- C5 witness: the amended statement instantiated at the parameter lists
`("ts", "a")` and `("ts", "b")`, which produce distinct digest inputs. -/
theorem c5_witness : pyJoin "|" ["ts", "a"] ≠ pyJoin "|" ["ts", "b"] :=
  (c5_amended digestModel ["ts", "a"] ["ts", "b"] (by decide) (by decide)
    (by decide) (by decide)).2 (by decide)

theorem oldestEntry_mem {α : Type} :
    ∀ (s : List (String × CEntry α)) (y : String × CEntry α),
    oldestEntry s = Option.some y → y ∈ s := by
  intro s
  induction s with
  | nil => intro y h; exact Option.noConfusion h
  | cons x xs ih =>
    intro y h
    simp only [oldestEntry] at h
    cases hx : oldestEntry xs with
    | none =>
      rw [hx] at h
      exact Option.some.inj h ▸ List.mem_cons_self x xs
    | some y' =>
      rw [hx] at h
      have hy := Option.some.inj h
      by_cases hlt : y'.2.ts < x.2.ts
      · rw [if_pos hlt] at hy
        exact hy ▸ List.mem_cons_of_mem x (ih y' hx)
      · rw [if_neg hlt] at hy
        exact hy ▸ List.mem_cons_self x xs

theorem oldestEntry_min {α : Type} :
    ∀ (s : List (String × CEntry α)) (y : String × CEntry α),
    oldestEntry s = Option.some y → ∀ x ∈ s, y.2.ts ≤ x.2.ts := by
  intro s
  induction s with
  | nil => intro y h; exact Option.noConfusion h
  | cons x xs ih =>
    intro y h z hz
    simp only [oldestEntry] at h
    cases hx : oldestEntry xs with
    | none =>
      rw [hx] at h
      have hy := Option.some.inj h
      have hxs : xs = [] := by
        cases xs with
        | nil => rfl
        | cons a as =>
          exfalso
          simp only [oldestEntry] at hx
          cases hb : oldestEntry as with
          | none => rw [hb] at hx; exact Option.noConfusion hx
          | some b => rw [hb] at hx; exact Option.noConfusion hx
      subst hxs
      have hzx := List.mem_singleton.mp hz
      rw [hzx, ← hy]
    | some y' =>
      rw [hx] at h
      have hy := Option.some.inj h
      rcases List.mem_cons.mp hz with hzx | hzxs
      · rw [hzx]
        by_cases hlt : y'.2.ts < x.2.ts
        · rw [if_pos hlt] at hy; rw [← hy]; exact le_of_lt hlt
        · rw [if_neg hlt] at hy; rw [← hy]
      · by_cases hlt : y'.2.ts < x.2.ts
        · rw [if_pos hlt] at hy; rw [← hy]; exact ih y' hx z hzxs
        · rw [if_neg hlt] at hy; rw [← hy]
          exact le_trans (not_lt.mp hlt) (ih y' hx z hzxs)

theorem oldestEntry_of_ne_nil {α : Type} (s : List (String × CEntry α)) (h : s ≠ []) :
    ∃ y, oldestEntry s = Option.some y := by
  cases s with
  | nil => exact absurd rfl h
  | cons x xs =>
    simp only [oldestEntry]
    cases oldestEntry xs with
    | none => exact ⟨x, rfl⟩
    | some y' => exact ⟨if y'.2.ts < x.2.ts then y' else x, rfl⟩

/-- C6: whenever a `set` makes the store exceed the capacity, exactly one
entry is evicted — one with the globally minimal insertion timestamp, so an
entry with a strictly newer timestamp is never evicted before an older
one. -/
theorem c6_eviction {α : Type} (maxItems : ℕ) (s : List (String × CEntry α))
    (k : String) (v : α) (now : ℤ)
    (hlen : maxItems < (dictSet s k ⟨v, now⟩).length) :
    ∃ ek ee, oldestEntry (dictSet s k ⟨v, now⟩) = Option.some (ek, ee) ∧
      cacheSet maxItems s k v now = (dictSet s k ⟨v, now⟩).eraseP (fun p => p.1 == ek) ∧
      (cacheSet maxItems s k v now).length + 1 = (dictSet s k ⟨v, now⟩).length ∧
      ∀ p ∈ cacheSet maxItems s k v now, ee.ts ≤ p.2.ts := by
  set s₁ := dictSet s k ⟨v, now⟩ with hs₁
  have hne : s₁ ≠ [] := by
    intro habs
    rw [habs] at hlen
    exact Nat.not_lt_zero maxItems hlen
  obtain ⟨⟨ek, ee⟩, hold⟩ := oldestEntry_of_ne_nil s₁ hne
  have hresult : cacheSet maxItems s k v now = s₁.eraseP (fun p => p.1 == ek) := by
    rw [cacheSet, ← hs₁, evictIfNeeded, if_neg (not_le.mpr hlen), hold]
  refine ⟨ek, ee, hold, hresult, ?_, ?_⟩
  · rw [hresult, List.length_eraseP_of_mem (oldestEntry_mem s₁ (ek, ee) hold)
      (by simp)]
    have : 1 ≤ s₁.length := by
      cases hcase : s₁ with
      | nil => exact absurd hcase hne
      | cons a as => simp
    omega
  · intro p hp
    rw [hresult] at hp
    exact oldestEntry_min s₁ (ek, ee) hold p ((List.eraseP_sublist s₁).subset hp)

/-- C6 witness: capacity 1, store holding `"a"` (inserted at time 0);
inserting `"b"` at time 3 evicts exactly one entry. -/
theorem c6_witness :
    (cacheSet 1 [("a", (⟨5, 0⟩ : CEntry ℕ))] "b" 7 3).length + 1
      = (dictSet [("a", (⟨5, 0⟩ : CEntry ℕ))] "b" ⟨7, 3⟩).length := by
  obtain ⟨ek, ee, h1, h2, h3, h4⟩ :=
    c6_eviction 1 [("a", (⟨5, 0⟩ : CEntry ℕ))] "b" 7 3 (by decide)
  exact h3

theorem storeLookup_none_of_not_mem {α : Type} :
    ∀ (s : List (String × CEntry α)) (k : String),
    k ∉ s.map Prod.fst → storeLookup s k = Option.none := by
  intro s
  induction s with
  | nil => intro k _; rfl
  | cons x xs ih =>
    intro k hk
    have hx : ¬ (x.1 == k) = true := by
      intro habs
      exact hk (by
        rw [List.map_cons]
        exact (beq_iff_eq.mp habs) ▸ List.mem_cons_self x.1 (xs.map Prod.fst))
    simp only [storeLookup, List.find?]
    rw [Bool.not_eq_true] at hx
    rw [hx]
    have := ih k (fun hm => hk (by rw [List.map_cons]; exact List.mem_cons_of_mem _ hm))
    simpa [storeLookup] using this

theorem storeLookup_eraseP_self {α : Type} :
    ∀ (s : List (String × CEntry α)) (k : String),
    (s.map Prod.fst).Nodup →
    storeLookup (s.eraseP (fun p => p.1 == k)) k = Option.none := by
  intro s
  induction s with
  | nil => intro k _; rfl
  | cons x xs ih =>
    intro k hnd
    rw [List.map_cons, List.nodup_cons] at hnd
    by_cases hx : (x.1 == k) = true
    · rw [List.eraseP_cons, hx]
      simp only [cond_true]
      exact storeLookup_none_of_not_mem xs k ((beq_iff_eq.mp hx) ▸ hnd.1)
    · rw [List.eraseP_cons]
      rw [Bool.not_eq_true] at hx
      rw [hx]
      simp only [cond_false]
      have hrec := ih k hnd.2
      simp only [storeLookup, List.find?] at hrec ⊢
      rw [hx]
      exact hrec

/-- C7: a `get` never returns an entry whose age exceeds the caller's TTL;
a present entry older than the TTL is reported as a miss and removed from
the store by that same `get`. -/
theorem c7_ttl {α : Type} (s : List (String × CEntry α)) (k : String)
    (ttl now : ℤ) (hnd : (s.map Prod.fst).Nodup) :
    (∀ v, (cacheGet s k ttl now).1 = Option.some v →
      ∃ e, storeLookup s k = Option.some e ∧ e.value = v ∧ now - e.ts ≤ ttl) ∧
    (∀ e, storeLookup s k = Option.some e → ttl < now - e.ts →
      (cacheGet s k ttl now).1 = Option.none ∧
      storeLookup (cacheGet s k ttl now).2 k = Option.none) := by
  constructor
  · intro v hv
    cases hlook : storeLookup s k with
    | none =>
      have hred : cacheGet s k ttl now = (Option.none, s) := by
        simp only [cacheGet, hlook]
      rw [hred] at hv
      exact Option.noConfusion hv
    | some e =>
      by_cases hexp : ttl < now - e.ts
      · have hred : cacheGet s k ttl now
            = (Option.none, s.eraseP (fun p => p.1 == k)) := by
          simp only [cacheGet, hlook, if_pos hexp]
        rw [hred] at hv
        exact Option.noConfusion hv
      · have hred : cacheGet s k ttl now = (Option.some e.value, s) := by
          simp only [cacheGet, hlook, if_neg hexp]
        rw [hred] at hv
        exact ⟨e, rfl, Option.some.inj hv, not_lt.mp hexp⟩
  · intro e he hexp
    have hred : cacheGet s k ttl now
        = (Option.none, s.eraseP (fun p => p.1 == k)) := by
      simp only [cacheGet, he, if_pos hexp]
    rw [hred]
    exact ⟨rfl, storeLookup_eraseP_self s k hnd⟩

/-- C7 witness: an entry inserted at time 0 read at time 10 with TTL 1 is a
miss and is removed. -/
theorem c7_witness :
    (cacheGet [("a", (⟨5, 0⟩ : CEntry ℕ))] "a" 1 10).1 = Option.none ∧
    storeLookup ((cacheGet [("a", (⟨5, 0⟩ : CEntry ℕ))] "a" 1 10).2) "a"
      = Option.none :=
  (c7_ttl [("a", (⟨5, 0⟩ : CEntry ℕ))] "a" 1 10 (by decide)).2 ⟨5, 0⟩
    (by decide) (by decide)

theorem zip_map_fst_snd {α β : Type} :
    ∀ (l : List (α × β)), (l.map Prod.fst).zip (l.map Prod.snd) = l := by
  intro l
  induction l with
  | nil => rfl
  | cons x xs ih => simp [ih]

theorem addPoint_points {α : Type} :
    ∀ (m : List (String × List α)) (k : String) (x : α) (kp : String × List α),
    kp ∈ addPoint m k x → ∀ p ∈ kp.2, (∃ kp₀ ∈ m, p ∈ kp₀.2) ∨ p = x := by
  intro m
  induction m with
  | nil =>
    intro k x kp hkp p hp
    simp only [addPoint, List.mem_singleton] at hkp
    subst hkp
    simp only [List.mem_singleton] at hp
    exact Or.inr hp
  | cons hd rest ih =>
    obtain ⟨k', ps⟩ := hd
    intro k x kp hkp p hp
    simp only [addPoint] at hkp
    by_cases hk : k' = k
    · rw [if_pos hk] at hkp
      rcases List.mem_cons.mp hkp with heq | hrest
      · rw [heq] at hp
        rcases List.mem_append.mp hp with hps | hpx
        · exact Or.inl ⟨(k', ps), List.mem_cons_self _ _, hps⟩
        · exact Or.inr (List.mem_singleton.mp hpx)
      · exact Or.inl ⟨kp, List.mem_cons_of_mem _ hrest, hp⟩
    · rw [if_neg hk] at hkp
      rcases List.mem_cons.mp hkp with heq | hrest
      · rw [heq] at hp
        exact Or.inl ⟨(k', ps), List.mem_cons_self _ _, hp⟩
      · rcases ih k x kp hrest p hp with ⟨kp₀, hkp₀, hpkp₀⟩ | hpx
        · exact Or.inl ⟨kp₀, List.mem_cons_of_mem _ hkp₀, hpkp₀⟩
        · exact Or.inr hpx

theorem collectPoints_sound (fromiso : String → Option PyDatetime)
    (timecol value : String) (label : Option String) (recs : List PyRec) :
    ∀ (rs : List PyRec) (m m' : List (String × List (ℤ × PyVal))),
    (∀ r ∈ rs, r ∈ recs) →
    (∀ kp ∈ m, ∀ p ∈ kp.2, PointOrigin fromiso recs timecol value p) →
    collectPoints fromiso timecol value label rs m = Except.ok m' →
    ∀ kp ∈ m', ∀ p ∈ kp.2, PointOrigin fromiso recs timecol value p := by
  intro rs
  induction rs with
  | nil =>
    intro m m' _ hinv hcol
    simp only [collectPoints] at hcol
    exact Except.ok.inj hcol ▸ hinv
  | cons r rs' ih =>
    intro m m' hsub hinv hcol
    have hrrec : r ∈ recs := hsub r (List.mem_cons_self _ _)
    have hsub' : ∀ x ∈ rs', x ∈ recs := fun x hx => hsub x (List.mem_cons_of_mem _ hx)
    cases hts : toEpochMs fromiso (rGet r timecol) with
    | error e =>
      simp only [collectPoints, hts] at hcol
      exact Except.noConfusion hcol
    | ok ts =>
      cases ts with
      | none =>
        simp only [collectPoints, hts] at hcol
        exact ih m m' hsub' hinv hcol
      | some t =>
        by_cases hval : rGet r value = PyVal.none
        · simp only [collectPoints, hts, if_pos hval] at hcol
          exact ih m m' hsub' hinv hcol
        · simp only [collectPoints, hts, if_neg hval] at hcol
          refine ih _ m' hsub' ?_ hcol
          intro kp hkp p hp
          rcases addPoint_points m _ (t, rGet r value) kp hkp p hp with ⟨kp₀, hkp₀, hpkp₀⟩ | hpx
          · exact hinv kp₀ hkp₀ p hpkp₀
          · subst hpx
            exact ⟨r, hrrec, hts, rfl, hval⟩

/-- C3 amended: in `app.py`'s timeseries adapter every emitted point
originates from a record whose normalized timestamp is present and equals
the point's time and whose value field is present and equals the point's
value — records with an absent normalized timestamp or absent value
contribute nothing.  (The older `apigrail.py` variant violates the claim:
see the counterexample.) -/
theorem c3_amended (fromiso : String → Option PyDatetime) (recs : List PyRec)
    (timecol value : String) (label : Option String) (out : TSOut)
    (hok : toGrafanaTimeseries fromiso recs timecol value label = Except.ok out) :
    ∀ f ∈ out.frames, ∀ p ∈ f.times.zip f.vals,
      PointOrigin fromiso recs timecol value p := by
  intro f hf p hp
  cases hcol : collectPoints fromiso timecol value label recs [] with
  | error e =>
    simp only [toGrafanaTimeseries, hcol] at hok
    exact Except.noConfusion hok
  | ok m =>
    simp only [toGrafanaTimeseries, hcol] at hok
    have hout := Except.ok.inj hok
    rw [← hout] at hf
    simp only [List.mem_map] at hf
    obtain ⟨kp, hkp, rfl⟩ := hf
    simp only [zip_map_fst_snd] at hp
    have hpmem : p ∈ kp.2 := (pySort_mem ptsLe kp.2 p).mp hp
    exact collectPoints_sound fromiso timecol value label recs recs [] m
      (fun r hr => hr) (by intro kp₀ h; exact absurd h (List.not_mem_nil kp₀)) hcol
      kp hkp p hpmem

/-- C3 counterexample: `apigrail.py`'s timeseries adapter, on a single
record that lacks both the time field and the value field, still emits a
point — `(None, None)` — instead of dropping the record. -/
theorem c3_counterexample :
    agTimeseries fromisoModel [[]] "ts" "v" Option.none
      = Except.ok
          { schema := "grafana-timeseries",
            frames := [{ name := "series", times := [PyVal.none],
                         vals := [PyVal.none] }] } ∧
    rGet [] "ts" = PyVal.none ∧ rGet [] "v" = PyVal.none := by
  refine ⟨by decide, rfl, rfl⟩

/-- C3 witness: the amended statement instantiated on one complete record,
whose single emitted point is traced back to that record. -/
theorem c3_witness :
    PointOrigin fromisoModel [[("ts", PyVal.str "2024-01-01T00:00:00Z"), ("v", PyVal.int 2)]]
      "ts" "v" (1704067200000, PyVal.int 2) :=
  c3_amended fromisoModel [[("ts", PyVal.str "2024-01-01T00:00:00Z"), ("v", PyVal.int 2)]]
    "ts" "v" Option.none
    { schema := "grafana-timeseries",
      frames := [{ name := "series", times := [1704067200000],
                   vals := [PyVal.int 2] }] }
    (by decide)
    { name := "series", times := [1704067200000], vals := [PyVal.int 2] }
    (by decide) (1704067200000, PyVal.int 2) (by decide)

theorem ptsLe_trans (a b c : ℤ × PyVal) (hab : ptsLe a b = true)
    (hbc : ptsLe b c = true) : ptsLe a c = true := by
  simp only [ptsLe, decide_eq_true_eq] at hab hbc ⊢
  exact le_trans hab hbc

theorem ptsLe_total (a b : ℤ × PyVal) : ptsLe a b = true ∨ ptsLe b a = true := by
  simp only [ptsLe, decide_eq_true_eq]
  exact le_total a.1 b.1

theorem agKeyLe_trans (a b c : PyVal × PyVal) (hab : agKeyLe a b = true)
    (hbc : agKeyLe b c = true) : agKeyLe a c = true := by
  simp only [agKeyLe, decide_eq_true_eq] at hab hbc ⊢
  exact le_trans hab hbc

theorem agKeyLe_total (a b : PyVal × PyVal) :
    agKeyLe a b = true ∨ agKeyLe b a = true := by
  simp only [agKeyLe, decide_eq_true_eq]
  exact le_total _ _

theorem pairwise_of_length_le_one {α : Type} {R : α → α → Prop}
    (l : List α) (h : l.length ≤ 1) : List.Pairwise R l := by
  cases l with
  | nil => exact List.Pairwise.nil
  | cons x xs =>
    cases xs with
    | nil => simp
    | cons y ys => simp at h

theorem agBuildFrames_mem :
    ∀ (m : List (String × List (PyVal × PyVal))) (fs : List AgFrame),
    agBuildFrames m = Except.ok fs → ∀ f ∈ fs,
    ∃ kp ∈ m, ∃ pts, agSortPts kp.2 = Except.ok pts ∧
      f = { name := kp.1, times := pts.map Prod.fst, vals := pts.map Prod.snd } := by
  intro m
  induction m with
  | nil =>
    intro fs h f hf
    simp only [agBuildFrames] at h
    rw [← Except.ok.inj h] at hf
    exact absurd hf (List.not_mem_nil f)
  | cons kp rest ih =>
    intro fs h f hf
    cases hs : agSortPts kp.2 with
    | error e =>
      simp only [agBuildFrames, hs] at h
      exact Except.noConfusion h
    | ok pts =>
      cases hr : agBuildFrames rest with
      | error e =>
        simp only [agBuildFrames, hs, hr] at h
        exact Except.noConfusion h
      | ok fs' =>
        simp only [agBuildFrames, hs, hr] at h
        rw [← Except.ok.inj h] at hf
        rcases List.mem_cons.mp hf with heq | htail
        · exact ⟨kp, List.mem_cons_self _ _, pts, hs, heq⟩
        · obtain ⟨kp₀, hkp₀, pts₀, hs₀, hf₀⟩ := ih fs' hr f htail
          exact ⟨kp₀, List.mem_cons_of_mem _ hkp₀, pts₀, hs₀, hf₀⟩

theorem agSortPts_inv (pts out : List (PyVal × PyVal))
    (h : agSortPts pts = Except.ok out) :
    (pts.length ≤ 1 ∧ out = pts) ∨
    ((∀ p ∈ pts, (toQ p.1).isSome = true) ∧ out = pySort agKeyLe pts) := by
  by_cases h1 : pts.length ≤ 1
  · left
    refine ⟨h1, ?_⟩
    simp only [agSortPts, if_pos h1] at h
    exact (Except.ok.inj h).symm
  · right
    by_cases h2 : pts.all (fun p => (toQ p.1).isSome) = true
    · refine ⟨fun p hp => List.all_eq_true.mp h2 p hp, ?_⟩
      simp only [agSortPts, if_neg h1, if_pos h2] at h
      exact (Except.ok.inj h).symm
    · simp only [agSortPts, if_neg h1, if_neg h2] at h
      exact Except.noConfusion h

/-- C8: in both adapters every output series has its points in
non-decreasing timestamp order (sorted after grouping): in `app.py` the
epoch-ms times are monotone integers, and in `apigrail.py` whenever the
adapter returns at all, consecutive time values are numeric and
non-decreasing. -/
theorem c8_sorted :
    (∀ (fromiso : String → Option PyDatetime) (recs : List PyRec)
      (timecol value : String) (label : Option String) (out : TSOut),
      toGrafanaTimeseries fromiso recs timecol value label = Except.ok out →
      ∀ f ∈ out.frames, List.Pairwise (fun a b : ℤ => a ≤ b) f.times) ∧
    (∀ (fromiso : String → Option PyDatetime) (recs : List PyRec)
      (timecol value : String) (label : Option String) (out : AgTSOut),
      agTimeseries fromiso recs timecol value label = Except.ok out →
      ∀ f ∈ out.frames, List.Pairwise
        (fun a b : PyVal => ∃ x y, toQ a = Option.some x ∧ toQ b = Option.some y ∧ x ≤ y)
        f.times) := by
  constructor
  · intro fromiso recs timecol value label out hok f hf
    cases hcol : collectPoints fromiso timecol value label recs [] with
    | error e =>
      simp only [toGrafanaTimeseries, hcol] at hok
      exact Except.noConfusion hok
    | ok m =>
      simp only [toGrafanaTimeseries, hcol] at hok
      rw [← Except.ok.inj hok] at hf
      simp only [List.mem_map] at hf
      obtain ⟨kp, hkp, rfl⟩ := hf
      have hs := pySort_pairwise ptsLe ptsLe_trans ptsLe_total kp.2
      have hP : List.Pairwise (fun p q : ℤ × PyVal => p.1 ≤ q.1) (pySort ptsLe kp.2) :=
        hs.imp (fun h => by simpa [ptsLe, decide_eq_true_eq] using h)
      exact List.pairwise_map.mpr hP
  · intro fromiso recs timecol value label out hok f hf
    cases hcol : agCollect fromiso timecol value label recs [] with
    | error e =>
      simp only [agTimeseries, hcol] at hok
      exact Except.noConfusion hok
    | ok m =>
      cases hbf : agBuildFrames m with
      | error e =>
        simp only [agTimeseries, hcol, hbf] at hok
        exact Except.noConfusion hok
      | ok fs =>
        simp only [agTimeseries, hcol, hbf] at hok
        rw [← Except.ok.inj hok] at hf
        obtain ⟨kp, hkp, pts, hsort, rfl⟩ := agBuildFrames_mem m fs hbf f hf
        rcases agSortPts_inv kp.2 pts hsort with ⟨hlen, rfl⟩ | ⟨hnum, rfl⟩
        · exact pairwise_of_length_le_one _ (by simpa using hlen)
        · have hs := pySort_pairwise agKeyLe agKeyLe_trans agKeyLe_total kp.2
          have hmemnum : ∀ p ∈ pySort agKeyLe kp.2, (toQ p.1).isSome = true :=
            fun p hp => hnum p ((pySort_mem _ _ _).mp hp)
          have himp : List.Pairwise
              (fun p q : PyVal × PyVal =>
                ∃ x y, toQ p.1 = Option.some x ∧ toQ q.1 = Option.some y ∧ x ≤ y)
              (pySort agKeyLe kp.2) := by
            refine hs.imp_of_mem ?_
            intro p q hp hq hle
            obtain ⟨x, hx⟩ := Option.isSome_iff_exists.mp (hmemnum p hp)
            obtain ⟨y, hy⟩ := Option.isSome_iff_exists.mp (hmemnum q hq)
            refine ⟨x, y, hx, hy, ?_⟩
            simpa [agKeyLe, hx, hy, decide_eq_true_eq] using hle
          exact List.pairwise_map.mpr himp

/-- C8 witness: two records with out-of-order string timestamps come out
time-ascending in the app adapter's frame. -/
theorem c8_witness :
    List.Pairwise (fun a b : ℤ => a ≤ b)
      (TSFrame.times { name := "series", times := [1704067200000, 1704067201000],
                       vals := [PyVal.int 2, PyVal.int 1] }) :=
  c8_sorted.1 fromisoModel
    [[("ts", PyVal.str "2024-01-01T00:00:01Z"), ("v", PyVal.int 1)],
     [("ts", PyVal.str "2024-01-01T00:00:00Z"), ("v", PyVal.int 2)]]
    "ts" "v" Option.none
    { schema := "grafana-timeseries",
      frames := [{ name := "series", times := [1704067200000, 1704067201000],
                   vals := [PyVal.int 2, PyVal.int 1] }] }
    (by decide)
    { name := "series", times := [1704067200000, 1704067201000],
      vals := [PyVal.int 2, PyVal.int 1] }
    (by decide)

theorem charListLt_trans :
    ∀ a b c : List Char, charListLt a b = true → charListLt b c = true →
    charListLt a c = true := by
  intro a
  induction a with
  | nil =>
    intro b c hab hbc
    cases b with
    | nil => exact absurd hab (by simp [charListLt])
    | cons y ys =>
      cases c with
      | nil => exact absurd hbc (by simp [charListLt])
      | cons z zs => rfl
  | cons x xs ih =>
    intro b c hab hbc
    cases b with
    | nil => exact absurd hab (by simp [charListLt])
    | cons y ys =>
      cases c with
      | nil => exact absurd hbc (by simp [charListLt])
      | cons z zs =>
        simp only [charListLt, Bool.or_eq_true, Bool.and_eq_true,
          decide_eq_true_eq, beq_iff_eq] at hab hbc ⊢
        rcases hab with hxy | ⟨hxy, hxs⟩
        · rcases hbc with hyz | ⟨hyz, hys⟩
          · exact Or.inl (lt_trans hxy hyz)
          · exact Or.inl (hyz ▸ hxy)
        · rcases hbc with hyz | ⟨hyz, hys⟩
          · exact Or.inl (hxy ▸ hyz)
          · exact Or.inr ⟨hxy.trans hyz, ih ys zs hxs hys⟩

theorem charListLt_tri :
    ∀ a b : List Char, charListLt a b = true ∨ a = b ∨ charListLt b a = true := by
  intro a
  induction a with
  | nil =>
    intro b
    cases b with
    | nil => exact Or.inr (Or.inl rfl)
    | cons y ys => exact Or.inl rfl
  | cons x xs ih =>
    intro b
    cases b with
    | nil => exact Or.inr (Or.inr rfl)
    | cons y ys =>
      rcases lt_trichotomy x y with hxy | hxy | hxy
      · left
        simp [charListLt, hxy]
      · rcases ih ys with h | h | h
        · left
          simp [charListLt, hxy, h]
        · subst hxy
          subst h
          exact Or.inr (Or.inl rfl)
        · right; right
          subst hxy
          simp [charListLt, h]
      · right; right
        simp [charListLt, hxy]

theorem pyStrLe_trans (a b c : String) (hab : pyStrLe a b = true)
    (hbc : pyStrLe b c = true) : pyStrLe a c = true := by
  simp only [pyStrLe, Bool.or_eq_true, beq_iff_eq] at hab hbc ⊢
  rcases hab with hab | hab
  · rcases hbc with hbc | hbc
    · exact Or.inl (charListLt_trans _ _ _ hab hbc)
    · subst hbc; exact Or.inl hab
  · rw [hab]; exact hbc

theorem pyStrLe_total (a b : String) : pyStrLe a b = true ∨ pyStrLe b a = true := by
  rcases charListLt_tri a.data b.data with h | h | h
  · left; simp [pyStrLe, h]
  · left
    have : a = b := String.ext h
    simp [pyStrLe, this]
  · right; simp [pyStrLe, h]

theorem colLe_trans (a b c : String) (hab : colLe a b = true)
    (hbc : colLe b c = true) : colLe a c = true := by
  simp only [colLe, Bool.or_eq_true, Bool.and_eq_true, decide_eq_true_eq] at hab hbc ⊢
  rcases hab with h1 | ⟨h1, h2⟩ <;> rcases hbc with g1 | ⟨g1, g2⟩
  · exact Or.inl (lt_trans h1 g1)
  · exact Or.inl (g1 ▸ h1)
  · exact Or.inl (h1 ▸ g1)
  · exact Or.inr ⟨h1.trans g1, pyStrLe_trans _ _ _ h2 g2⟩

theorem colLe_total (a b : String) : colLe a b = true ∨ colLe b a = true := by
  simp only [colLe, Bool.or_eq_true, Bool.and_eq_true, decide_eq_true_eq]
  rcases Nat.lt_trichotomy (colRank a) (colRank b) with h | h | h
  · exact Or.inl (Or.inl h)
  · rcases pyStrLe_total a b with g | g
    · exact Or.inl (Or.inr ⟨h, g⟩)
    · exact Or.inr (Or.inr ⟨h.symm, g⟩)
  · exact Or.inr (Or.inl h)

/-- C9 counterexample: `apigrail.py`'s table adapter sorts columns purely
lexicographically — on a record with keys `ztime` (time-like) and `a` it
puts `a` first, so time-like names do not come first there. -/
theorem c9_counterexample :
    agTable [[("ztime", PyVal.int 1), ("a", PyVal.int 2)]]
      = { schema := "grafana-table", columns := ["a", "ztime"],
          rows := [[PyVal.int 2, PyVal.int 1]] } ∧
    timeLike "ztime" = true ∧ timeLike "a" = false :=
  ⟨by decide, by decide, by decide⟩

/-- C9 amended: in `app.py`'s table adapter the columns are exactly the
union of the record keys, ordered with time-like names (rank 0) before the
rest (rank 1) and lexicographically (by code point) within each rank; the
older `apigrail.py` table adapter instead uses plain lexicographic order
with no time-first preference. -/
theorem c9_amended (recs : List PyRec) :
    (∀ k, k ∈ (toGrafanaTable recs).columns ↔ ∃ r ∈ recs, ∃ p ∈ r, p.1 = k) ∧
    List.Pairwise
      (fun a b => colRank a < colRank b ∨ (colRank a = colRank b ∧ pyStrLe a b = true))
      (toGrafanaTable recs).columns := by
  constructor
  · intro k
    show k ∈ pySort colLe (unionKeys recs) ↔ _
    rw [pySort_mem]
    simp only [unionKeys, List.mem_dedup, List.mem_flatten, List.mem_map]
    constructor
    · rintro ⟨l, ⟨r, hr, rfl⟩, hkl⟩
      obtain ⟨p, hp, hpk⟩ := List.mem_map.mp hkl
      exact ⟨r, hr, p, hp, hpk⟩
    · rintro ⟨r, hr, p, hp, rfl⟩
      exact ⟨r.map Prod.fst, ⟨r, hr, rfl⟩, List.mem_map.mpr ⟨p, hp, rfl⟩⟩
  · have hs := pySort_pairwise colLe colLe_trans colLe_total (unionKeys recs)
    exact hs.imp (fun h => by
      simpa [colLe, Bool.or_eq_true, Bool.and_eq_true, decide_eq_true_eq] using h)

theorem backoffAt_step (i : ℕ) : min (backoffAt i * 2) 1000 = backoffAt (i + 1) := by
  simp only [backoffAt]
  rcases le_total (250 * 2 ^ i : ℤ) 1000 with h | h
  · rw [min_eq_left h]
    congr 1
    ring
  · rw [min_eq_right h]
    rw [min_eq_right (by norm_num : (1000 : ℤ) ≤ 1000 * 2)]
    have h1 : (1000 : ℤ) ≤ 250 * 2 ^ (i + 1) := by
      calc (1000 : ℤ) ≤ 250 * 2 ^ i * 2 := by linarith
      _ = 250 * 2 ^ (i + 1) := by ring
    rw [min_eq_right h1]

theorem pollLoop_shift (polls : ℕ → PollStep) (timeout start c : ℤ) :
    ∀ (fuel i : ℕ) (now backoff : ℤ),
    pollLoop polls timeout (start + c) i (now + c) backoff fuel
      = pollLoop polls timeout start i now backoff fuel := by
  intro fuel
  induction fuel with
  | zero => intro i now backoff; rfl
  | succ n ih =>
    intro i now backoff
    cases hresp : (polls i).resp with
    | httpErr code body => simp only [pollLoop, hresp]
    | result status payload =>
      simp only [pollLoop, hresp]
      have harith : now + c + (polls i).dur - (start + c)
          = now + (polls i).dur - start := by ring
      by_cases h1 : status = Option.some "SUCCEEDED"
      · rw [if_pos h1, if_pos h1]
      · rw [if_neg h1, if_neg h1]
        by_cases h2 : status = Option.some "FAILED"
        · rw [if_pos h2, if_pos h2]
        · rw [if_neg h2, if_neg h2, harith]
          by_cases h3 : timeout < now + (polls i).dur - start
          · rw [if_pos h3, if_pos h3]
          · rw [if_neg h3, if_neg h3]
            have harith2 : now + c + (polls i).dur + backoff
                = (now + (polls i).dur + backoff) + c := by ring
            rw [harith2]
            exact ih (i + 1) (now + (polls i).dur + backoff) (min (backoff * 2) 1000)

theorem pollLoop_timeout_sound (polls : ℕ → PollStep) (timeout start : ℤ)
    (hpend : ∀ j, isPending (polls j)) :
    ∀ (fuel i : ℕ) (now backoff : ℤ) (r : Except HTTPExc String),
    now = start + preTime polls i → backoff = backoffAt i →
    pollLoop polls timeout start i now backoff fuel = Option.some r →
    r = Except.error ⟨504, "Grail timeout"⟩ ∧
    ∃ m, i ≤ m ∧ timeout < loopElapsed polls m ∧
      ∀ j, i ≤ j → j < m → loopElapsed polls j ≤ timeout := by
  intro fuel
  induction fuel with
  | zero =>
    intro i now backoff r _ _ hloop
    exact Option.noConfusion hloop
  | succ n ih =>
    intro i now backoff r hnow hb hloop
    obtain ⟨st, pl, hresp, hns, hnf⟩ := hpend i
    simp only [pollLoop, hresp] at hloop
    rw [if_neg hns, if_neg hnf] at hloop
    have harith : now + (polls i).dur - start = loopElapsed polls i := by
      rw [hnow, loopElapsed]; ring
    by_cases h3 : timeout < now + (polls i).dur - start
    · rw [if_pos h3] at hloop
      refine ⟨(Option.some.inj hloop).symm, i, le_refl i, ?_, ?_⟩
      · rw [← harith]; exact h3
      · intro j hj1 hj2; omega
    · rw [if_neg h3] at hloop
      obtain ⟨hr, m, him, helap, hbound⟩ := ih (i + 1)
        (now + (polls i).dur + backoff) (min (backoff * 2) 1000) r
        (by rw [hnow, hb, preTime]; ring) (by rw [hb, backoffAt_step]) hloop
      refine ⟨hr, m, by omega, helap, ?_⟩
      intro j hj1 hj2
      rcases Nat.eq_or_lt_of_le hj1 with heq | hlt
      · rw [← heq]
        exact not_lt.mp (harith ▸ h3)
      · exact hbound j hlt hj2

theorem pollLoop_timeout_complete (polls : ℕ → PollStep) (timeout start : ℤ)
    (hpend : ∀ j, isPending (polls j)) :
    ∀ (fuel i m : ℕ) (now backoff : ℤ),
    now = start + preTime polls i → backoff = backoffAt i →
    i ≤ m → m - i < fuel →
    timeout < loopElapsed polls m →
    (∀ j, i ≤ j → j < m → loopElapsed polls j ≤ timeout) →
    pollLoop polls timeout start i now backoff fuel
      = Option.some (Except.error ⟨504, "Grail timeout"⟩) := by
  intro fuel
  induction fuel with
  | zero =>
    intro i m now backoff _ _ him hfuel _ _
    omega
  | succ n ih =>
    intro i m now backoff hnow hb him hfuel helap hbound
    obtain ⟨st, pl, hresp, hns, hnf⟩ := hpend i
    simp only [pollLoop, hresp]
    rw [if_neg hns, if_neg hnf]
    have harith : now + (polls i).dur - start = loopElapsed polls i := by
      rw [hnow, loopElapsed]; ring
    rcases Nat.eq_or_lt_of_le him with heq | hlt
    · subst heq
      rw [harith, if_pos helap]
    · have hne : ¬ timeout < now + (polls i).dur - start := by
        rw [harith]
        exact not_lt.mpr (hbound i (le_refl i) hlt)
      rw [if_neg hne]
      exact ih (i + 1) m _ _ (by rw [hnow, hb, preTime]; ring)
        (by rw [hb, backoffAt_step]) hlt (by omega) helap
        (fun j hj1 hj2 => hbound j (by omega) hj2)

/-- C4 counterexample: with a 100 ms submission round trip and a 30 ms
timeout, the first poll answers `pending` at a moment when the time elapsed
since the start of submission (110 ms) already exceeds the timeout, yet the
engine does not return TimedOut — it succeeds on the second poll, because
`start = time.time()` is captured only after the submission response. -/
theorem c4_counterexample :
    grailQuery true (SubmitResp.ok (Option.some "job1")) 100 cexPolls 30 5
      = Option.some (Except.ok "done") ∧
    isPending (cexPolls 0) ∧ 30 < 100 + (cexPolls 0).dur := by
  refine ⟨by decide, ⟨Option.some "RUNNING", "r", rfl, by decide, by decide⟩, by decide⟩

/-- C4 amended: the timeout is measured from the completion of the
submission round trip (the start of the polling loop), not from the start of
submission: the submission duration has no effect at all on the outcome,
and — while the job stays pending — TimedOut (HTTP 504) is returned exactly
when the wall-clock time consumed by the polling loop at some poll's
response first exceeds the timeout. -/
theorem c4_amended :
    (∀ (configured : Bool) (submit : SubmitResp) (polls : ℕ → PollStep)
       (timeout d₁ d₂ : ℤ) (fuel : ℕ),
       grailQuery configured submit d₁ polls timeout fuel
         = grailQuery configured submit d₂ polls timeout fuel) ∧
    (∀ (polls : ℕ → PollStep) (subDur timeout : ℤ) (jid : String) (fuel : ℕ)
       (r : Except HTTPExc String),
       (∀ j, isPending (polls j)) →
       grailQuery true (SubmitResp.ok (Option.some jid)) subDur polls timeout fuel
         = Option.some r →
       r = Except.error ⟨504, "Grail timeout"⟩ ∧
       ∃ m, timeout < loopElapsed polls m ∧
         ∀ j, j < m → loopElapsed polls j ≤ timeout) ∧
    (∀ (polls : ℕ → PollStep) (subDur timeout : ℤ) (jid : String) (fuel m : ℕ),
       (∀ j, isPending (polls j)) →
       m < fuel → timeout < loopElapsed polls m →
       (∀ j, j < m → loopElapsed polls j ≤ timeout) →
       grailQuery true (SubmitResp.ok (Option.some jid)) subDur polls timeout fuel
         = Option.some (Except.error ⟨504, "Grail timeout"⟩)) := by
  refine ⟨?_, ?_, ?_⟩
  · intro configured submit polls timeout d₁ d₂ fuel
    cases configured with
    | false => rfl
    | true =>
      cases submit with
      | httpErr code body => rfl
      | ok jid =>
        cases jid with
        | none => rfl
        | some j =>
          show pollLoop polls timeout d₁ 0 d₁ 250 fuel
            = pollLoop polls timeout d₂ 0 d₂ 250 fuel
          have h := pollLoop_shift polls timeout d₂ (d₁ - d₂) fuel 0 d₂ 250
          have e1 : d₂ + (d₁ - d₂) = d₁ := by ring
          rw [e1] at h
          exact h
  · intro polls subDur timeout jid fuel r hpend hrun
    have hloop : pollLoop polls timeout subDur 0 subDur 250 fuel = Option.some r := hrun
    obtain ⟨hr, m, _, helap, hbound⟩ :=
      pollLoop_timeout_sound polls timeout subDur hpend fuel 0 subDur 250 r
        (by rw [preTime]; ring) (by decide) hloop
    exact ⟨hr, m, helap, fun j hj => hbound j (Nat.zero_le j) hj⟩
  · intro polls subDur timeout jid fuel m hpend hfuel helap hbound
    show pollLoop polls timeout subDur 0 subDur 250 fuel
      = Option.some (Except.error ⟨504, "Grail timeout"⟩)
    exact pollLoop_timeout_complete polls timeout subDur hpend fuel 0 m subDur 250
      (by rw [preTime]; ring) (by decide) (Nat.zero_le m) (by omega) helap
      (fun j _ hj => hbound j hj)

/-- C4 witness: a permanently pending backend with 1000 ms polls and a
1500 ms timeout times out (the loop has consumed 2250 ms at the second
poll's response), whatever the submission duration (here 77 ms). -/
theorem c4_witness :
    grailQuery true (SubmitResp.ok (Option.some "job1")) 77 pendingPolls 1500 5
      = Option.some (Except.error ⟨504, "Grail timeout"⟩) :=
  c4_amended.2.2 pendingPolls 77 1500 "job1" 5 1
    (fun j => ⟨Option.some "RUNNING", "r", rfl, by decide, by decide⟩)
    (by decide) (by decide)
    (fun j hj => by
      have hj0 : j = 0 := Nat.lt_one_iff.mp hj
      rw [hj0]; decide)

/-- C10 counterexample: the cache is not left fully unchanged on engine
failure — if the request's key holds an expired entry, the lookup performed
before the engine runs removes it, so the engine's failure leaves a store
that differs from the initial one. -/
theorem c10_counterexample :
    tableHandler digestModel 512
      [("table|q|f|t",
        (⟨{ schema := "grafana-table", columns := [], rows := [] }, 0⟩ : CEntry TableOut))]
      "q" "f" "t" 1 10 (Except.error ⟨502, "boom"⟩)
      = (Except.error ⟨502, "boom"⟩, []) ∧
    ([("table|q|f|t",
        (⟨{ schema := "grafana-table", columns := [], rows := [] }, 0⟩ : CEntry TableOut))]
      : List (String × CEntry TableOut)) ≠ [] :=
  ⟨by decide, by decide⟩

/-- C10 amended: when the cache lookup misses and the engine fails, the
handler returns the engine's error and the final store is exactly the store
left by the lookup (whose only possible mutation is the removal of an
expired entry); in particular no entry is inserted for the request's cache
key, which is absent from the final store. -/
theorem c10_amended (digest : String → String) (maxItems : ℕ)
    (store : List (String × CEntry TableOut)) (dql fromP toP : String)
    (ttl now : ℤ) (e : HTTPExc)
    (hnd : (store.map Prod.fst).Nodup)
    (hmiss : (cacheGet store (hashKey digest ["table", dql, fromP, toP]) ttl now).1
      = Option.none) :
    tableHandler digest maxItems store dql fromP toP ttl now (Except.error e)
      = (Except.error e,
         (cacheGet store (hashKey digest ["table", dql, fromP, toP]) ttl now).2) ∧
    storeLookup
      (tableHandler digest maxItems store dql fromP toP ttl now (Except.error e)).2
      (hashKey digest ["table", dql, fromP, toP]) = Option.none := by
  set key := hashKey digest ["table", dql, fromP, toP] with hkey
  set s2 := (cacheGet store key ttl now).2 with hs2
  have hsplit : cacheGet store key ttl now = (Option.none, s2) := by
    rw [hs2, ← hmiss]
  have hmain : tableHandler digest maxItems store dql fromP toP ttl now (Except.error e)
      = (Except.error e, s2) := by
    simp only [tableHandler, ← hkey, hsplit]
  refine ⟨hmain, ?_⟩
  rw [hmain]
  cases hlook : storeLookup store key with
  | none =>
    have h2 : s2 = store := by
      rw [hs2]
      simp only [cacheGet, hlook]
    rw [h2]
    exact hlook
  | some entry =>
    by_cases hexp : ttl < now - entry.ts
    · have h2 : s2 = store.eraseP (fun p => p.1 == key) := by
        rw [hs2]
        simp only [cacheGet, hlook, if_pos hexp]
      rw [h2]
      exact storeLookup_eraseP_self store _ hnd
    · exfalso
      have h1 : (cacheGet store key ttl now).1 = Option.some entry.value := by
        simp only [cacheGet, hlook, if_neg hexp]
      rw [h1] at hmiss
      exact Option.noConfusion hmiss

/-- C10 witness: the amended statement instantiated on a store holding an
expired entry for the request's key and a timed-out engine. -/
theorem c10_witness :
    tableHandler digestModel 512
      [("table|q|f|t",
        (⟨{ schema := "grafana-table", columns := [], rows := [] }, 0⟩ : CEntry TableOut))]
      "q" "f" "t" 1 10 (Except.error ⟨504, "Grail timeout"⟩)
      = (Except.error ⟨504, "Grail timeout"⟩,
         (cacheGet
           [("table|q|f|t",
             (⟨{ schema := "grafana-table", columns := [], rows := [] }, 0⟩ : CEntry TableOut))]
           (hashKey digestModel ["table", "q", "f", "t"]) 1 10).2) ∧
    storeLookup
      (tableHandler digestModel 512
        [("table|q|f|t",
          (⟨{ schema := "grafana-table", columns := [], rows := [] }, 0⟩ : CEntry TableOut))]
        "q" "f" "t" 1 10 (Except.error ⟨504, "Grail timeout"⟩)).2
      (hashKey digestModel ["table", "q", "f", "t"]) = Option.none :=
  c10_amended digestModel 512
    [("table|q|f|t",
      (⟨{ schema := "grafana-table", columns := [], rows := [] }, 0⟩ : CEntry TableOut))]
    "q" "f" "t" 1 10 ⟨504, "Grail timeout"⟩ (by decide) (by decide)
